import Mathlib

/-!
# Verification of the riot image-fingerprint matcher

Shallow embedding of the core of the repository (`image_indexer.py`,
`main.py`): the tolerance-based similarity scorer `compare_vectors`,
the durable catalogue index (`load_index`, `index_all_images` with its
dict-upsert semantics), and the matcher `run_comparison_logic`.

Numeric conventions: Python ints are `Int`, Python float results are
modelled exactly as `Rat`.  A Python function that can raise an
exception on some input is embedded as an `Option`-valued function,
`none` marking the raising inputs.
-/

namespace Riot

/-- Python `abs` on integers. -/
def iabs (x : Int) : Int := if x < 0 then -x else x

/-- The loop of `compare_vectors` (image_indexer.py lines 48-57): walk both
vectors three channels at a time, counting pixels whose max channel
difference exceeds the tolerance.  The Python loop indexes `a[i+1]` and
`a[i+2]` unconditionally, so on equal-length inputs whose length is not a
multiple of 3 it raises `IndexError`; that is the `none` result here
(reached through the final catch-all pattern, since equal-length lists
consume the triple patterns in lock-step). -/
def countMismatch (t : Int) : List Int → List Int → Option Nat
  | [], [] => some 0
  | r1 :: g1 :: b1 :: ra, r2 :: g2 :: b2 :: rb =>
    match countMismatch t ra rb with
    | none => none
    | some n =>
      if max (max (iabs (r1 - r2)) (iabs (g1 - g2))) (iabs (b1 - b2)) > t
      then some (n + 1) else some n
  | _, _ => none

/-- Embeds `compare_vectors` (image_indexer.py lines 36-63).  Differing lengths
return `0.0` before the loop runs.  Otherwise the loop counts mismatched
pixels (`none` = `IndexError`), then the code divides by
`total_pixels = len/3`; when the vectors are empty this is `0/0.0`, a
`ZeroDivisionError`, hence `none`. -/
def compare_vectors (a b : List Int) (t : Int) : Option Rat :=
  if a.length ≠ b.length then some 0
  else
    match countMismatch t a b with
    | none => none
    | some m =>
      if a.length = 0 then none
      else some (100 - ((m : Rat) / ((a.length : Rat) / 3)) * 100)

/-- Modelled from the spec's words (for the refinement claim about the
scorer): pixel `i` is mismatched when the max of the per-channel absolute
differences of the aligned triple at positions `3i, 3i+1, 3i+2` exceeds
the tolerance. -/
def specPixelMismatch (a b : List Int) (t : Int) (i : Nat) : Bool :=
  max (max (iabs (a.getD (3 * i) 0 - b.getD (3 * i) 0))
           (iabs (a.getD (3 * i + 1) 0 - b.getD (3 * i + 1) 0)))
      (iabs (a.getD (3 * i + 2) 0 - b.getD (3 * i + 2) 0)) > t

/-- Modelled from the spec's words: the number of mismatched pixel indices
`i` in `0..n-1`. -/
def specMismatchCount (a b : List Int) (t : Int) (n : Nat) : Nat :=
  (List.range n).countP (specPixelMismatch a b t)

theorem specPixelMismatch_cons (r1 g1 b1 r2 g2 b2 : Int) (ra rb : List Int)
    (t : Int) (i : Nat) :
    specPixelMismatch (r1 :: g1 :: b1 :: ra) (r2 :: g2 :: b2 :: rb) t (i + 1) =
      specPixelMismatch ra rb t i := by
  unfold specPixelMismatch
  rw [show 3 * (i + 1) = 3 * i + 1 + 1 + 1 by ring,
      show 3 * i + 1 + 1 + 1 + 1 = 3 * i + 1 + 1 + 1 + 1 by rfl,
      show 3 * i + 1 + 1 + 1 + 2 = 3 * i + 2 + 1 + 1 + 1 by ring]
  simp only [List.getD_cons_succ]

/-- The loop of `compare_vectors` computes exactly the spec's mismatched
pixel count on well-formed (length `3·n`) inputs. -/
theorem countMismatch_eq (t : Int) :
    ∀ (n : Nat) (a b : List Int), a.length = 3 * n → b.length = 3 * n →
      countMismatch t a b = some (specMismatchCount a b t n) := by
  intro n
  induction n with
  | zero =>
    intro a b ha hb
    have ha0 : a = [] := List.eq_nil_of_length_eq_zero (by omega)
    have hb0 : b = [] := List.eq_nil_of_length_eq_zero (by omega)
    subst ha0; subst hb0
    simp [countMismatch, specMismatchCount]
  | succ k ih =>
    intro a b ha hb
    match a, b with
    | [], _ => simp only [List.length_nil] at ha; omega
    | [_], _ => simp only [List.length_cons, List.length_nil] at ha; omega
    | [_, _], _ => simp only [List.length_cons, List.length_nil] at ha; omega
    | _ :: _ :: _ :: _, [] => simp only [List.length_nil] at hb; omega
    | _ :: _ :: _ :: _, [_] => simp only [List.length_cons, List.length_nil] at hb; omega
    | _ :: _ :: _ :: _, [_, _] => simp only [List.length_cons, List.length_nil] at hb; omega
    | r1 :: g1 :: b1 :: ra, r2 :: g2 :: b2 :: rb =>
      have hra : ra.length = 3 * k := by simp at ha; omega
      have hrb : rb.length = 3 * k := by simp at hb; omega
      have hrec := ih ra rb hra hrb
      have hcount : specMismatchCount (r1 :: g1 :: b1 :: ra) (r2 :: g2 :: b2 :: rb) t (k + 1) =
          specMismatchCount ra rb t k +
            (if specPixelMismatch (r1 :: g1 :: b1 :: ra) (r2 :: g2 :: b2 :: rb) t 0 then 1 else 0) := by
        unfold specMismatchCount
        rw [List.range_succ_eq_map]
        rw [List.countP_cons]
        congr 1
        rw [List.countP_map]
        apply List.countP_congr
        intro i _
        simp only [Function.comp_apply]
        rw [specPixelMismatch_cons]
      have hpix0 : specPixelMismatch (r1 :: g1 :: b1 :: ra) (r2 :: g2 :: b2 :: rb) t 0 =
          (max (max (iabs (r1 - r2)) (iabs (g1 - g2))) (iabs (b1 - b2)) > t) := by
        unfold specPixelMismatch
        norm_num [List.getD]
      simp only [countMismatch, hrec]
      rw [hcount]
      by_cases hgt : max (max (iabs (r1 - r2)) (iabs (g1 - g2))) (iabs (b1 - b2)) > t
      · rw [if_pos hgt]
        simp [hpix0, hgt]
      · rw [if_neg hgt]
        simp [hpix0, hgt]

/-- Closed form of the scorer on well-formed inputs: shared helper for
the claims below. -/
theorem compare_vectors_formula (a b : List Int) (t : Int) (n : Nat)
    (hn : 0 < n) (ha : a.length = 3 * n) (hb : b.length = 3 * n) :
    compare_vectors a b t =
      some (100 * (1 - (specMismatchCount a b t n : Rat) / (n : Rat))) := by
  have hcm := countMismatch_eq t n a b ha hb
  have hne : ¬ a.length ≠ b.length := by omega
  have hz : ¬ a.length = 0 := by omega
  simp only [compare_vectors, if_neg hne, hcm, if_neg hz]
  congr 1
  rw [ha]
  have h3 : ((3 * n : Nat) : Rat) / 3 = (n : Rat) := by push_cast; ring
  rw [h3]
  have hn0 : (n : Rat) ≠ 0 := Nat.cast_ne_zero.mpr (by omega)
  field_simp
  ring

/-- C1: on equal-length inputs of length `3·N` (N > 0) with tolerance
`T ≥ 0`, `compare_vectors` returns exactly `100 × (1 − M/N)` where `M` is
the per-pixel max-channel-difference mismatch count of the spec. -/
theorem C1_scorer_formula (a b : List Int) (t : Int) (n : Nat)
    (hn : 0 < n) (ha : a.length = 3 * n) (hb : b.length = 3 * n)
    (ht : 0 ≤ t) :
    compare_vectors a b t =
      some (100 * (1 - (specMismatchCount a b t n : Rat) / (n : Rat))) :=
  compare_vectors_formula a b t n hn ha hb

/-- C1 witness. -/
theorem C1_scorer_formula_witness :
    (0 < 1 ∧ ([0, 0, 20] : List Int).length = 3 * 1 ∧ (0 : Int) ≤ 15) ∧
      compare_vectors [0, 0, 0] [0, 0, 20] 15 =
        some (100 * (1 - (specMismatchCount [0, 0, 0] [0, 0, 20] 15 1 : Rat) / (1 : Rat))) :=
  ⟨by refine ⟨by decide, by decide, by decide⟩,
   C1_scorer_formula [0, 0, 0] [0, 0, 20] 15 1 (by decide) (by decide) (by decide) (by decide)⟩

/-- C3 counterexample: `compare_vectors` is not total on all
equal-length inputs.  On two empty vectors the Python code divides the
mismatch count by `total_pixels = 0/3 = 0.0` and raises
`ZeroDivisionError`; on equal-length vectors of length 1 the loop reads
`vector_a[1]` and raises `IndexError`.  Both are `none` (an unhandled
exception), not a returned numeric result. -/
theorem C3_not_total_counterexample :
    compare_vectors [] [] 0 = none ∧ compare_vectors [0] [0] 0 = none := by
  constructor <;> rfl

/-- C3 amended: the scorer returns a numeric result whenever the two
lengths differ, or the (equal) length is a nonzero multiple of 3 — i.e.
on every pair of actual fingerprints; equal-length inputs that are empty
or of length not a multiple of 3 instead raise
(`ZeroDivisionError` / `IndexError`). -/
theorem C3_total_on_wellformed (a b : List Int) (t : Int)
    (h : a.length ≠ b.length ∨ (3 ∣ a.length ∧ a.length = b.length ∧ a.length ≠ 0)) :
    ∃ q : Rat, compare_vectors a b t = some q := by
  rcases h with h | ⟨⟨n, hn⟩, hab, h0⟩
  · exact ⟨0, by simp [compare_vectors, if_pos h]⟩
  · have hcm := countMismatch_eq t n a b hn (hab ▸ hn)
    have hne : ¬ a.length ≠ b.length := by omega
    have hz : ¬ a.length = 0 := h0
    refine ⟨100 - ((specMismatchCount a b t n : Rat) / ((a.length : Rat) / 3)) * 100, ?_⟩
    simp only [compare_vectors, if_neg hne, hcm, if_neg hz]

/-- C3 witness. -/
theorem C3_total_on_wellformed_witness :
    (([1, 2, 3] : List Int).length ≠ ([4, 5] : List Int).length) ∧
      ∃ q : Rat, compare_vectors [1, 2, 3] [4, 5] 0 = some q :=
  ⟨by decide, C3_total_on_wellformed [1, 2, 3] [4, 5] 0 (Or.inl (by decide))⟩

/-- C4: on inputs of differing lengths the scorer returns exactly `0.0`
and raises nothing — a defined degenerate result, checked before the
loop runs. -/
theorem C4_length_mismatch_sentinel (a b : List Int) (t : Int)
    (h : a.length ≠ b.length) :
    compare_vectors a b t = some 0 := by
  simp [compare_vectors, if_pos h]

/-- C4 witness. -/
theorem C4_length_mismatch_sentinel_witness :
    (([1] : List Int).length ≠ ([] : List Int).length) ∧
      compare_vectors [1] [] 7 = some 0 :=
  ⟨by decide, C4_length_mismatch_sentinel [1] [] 7 (by decide)⟩

/-- C5: scoring a fingerprint against itself with any tolerance `T ≥ 0`
yields confidence exactly `100.0` (every channel difference is 0, so no
pixel exceeds a nonnegative tolerance). -/
theorem C5_self_match (a : List Int) (t : Int)
    (h3 : 3 ∣ a.length) (h0 : a.length ≠ 0) (ht : 0 ≤ t) :
    compare_vectors a a t = some 100 := by
  obtain ⟨n, hn⟩ := h3
  have hpos : 0 < n := by omega
  have hM : specMismatchCount a a t n = 0 := by
    unfold specMismatchCount
    rw [List.countP_eq_zero]
    intro i _
    unfold specPixelMismatch iabs
    simp only [sub_self]
    norm_num
    omega
  rw [compare_vectors_formula a a t n hpos hn hn, hM]
  norm_num

/-- C5 witness. -/
theorem C5_self_match_witness :
    ((3 : Nat) ∣ ([5, 6, 7] : List Int).length ∧ ([5, 6, 7] : List Int).length ≠ 0 ∧
        (0 : Int) ≤ 0) ∧
      compare_vectors [5, 6, 7] [5, 6, 7] 0 = some 100 :=
  ⟨⟨by decide, by decide, by decide⟩,
   C5_self_match [5, 6, 7] 0 (by decide) (by decide) (by decide)⟩

/-- C6: the scorer is monotone in the tolerance — on well-formed
equal-length inputs, raising `T` never lowers the returned confidence,
because a pixel whose max channel difference exceeds the larger
tolerance also exceeds the smaller one. -/
theorem C6_tolerance_monotone (a b : List Int) (t1 t2 : Int)
    (hab : a.length = b.length) (h3 : 3 ∣ a.length) (h0 : a.length ≠ 0)
    (ht : t1 ≤ t2) :
    ∃ q1 q2 : Rat, compare_vectors a b t1 = some q1 ∧
      compare_vectors a b t2 = some q2 ∧ q1 ≤ q2 := by
  obtain ⟨n, hn⟩ := h3
  have hpos : 0 < n := by omega
  have hbn : b.length = 3 * n := by omega
  have hMle : specMismatchCount a b t2 n ≤ specMismatchCount a b t1 n := by
    unfold specMismatchCount
    apply List.countP_mono_left
    intro i _
    unfold specPixelMismatch
    intro h
    simp only [decide_eq_true_eq] at h ⊢
    omega
  refine ⟨_, _, compare_vectors_formula a b t1 n hpos hn hbn,
      compare_vectors_formula a b t2 n hpos hn hbn, ?_⟩
  have hn0 : (0 : Rat) < (n : Rat) := by exact_mod_cast hpos
  have hdiv : (specMismatchCount a b t2 n : Rat) / (n : Rat) ≤
      (specMismatchCount a b t1 n : Rat) / (n : Rat) :=
    (div_le_div_iff_of_pos_right hn0).mpr (by exact_mod_cast hMle)
  nlinarith [hdiv]

/-- C6 witness. -/
theorem C6_tolerance_monotone_witness :
    (([0, 0, 0] : List Int).length = ([0, 0, 20] : List Int).length ∧
        (3 : Nat) ∣ ([0, 0, 0] : List Int).length ∧
        ([0, 0, 0] : List Int).length ≠ 0 ∧ (0 : Int) ≤ 100) ∧
      ∃ q1 q2 : Rat, compare_vectors [0, 0, 0] [0, 0, 20] 0 = some q1 ∧
        compare_vectors [0, 0, 0] [0, 0, 20] 100 = some q2 ∧ q1 ≤ q2 :=
  ⟨⟨by decide, by decide, by decide, by decide⟩,
   C6_tolerance_monotone [0, 0, 0] [0, 0, 20] 0 100 (by decide) (by decide)
     (by decide) (by decide)⟩

/-! ## Catalogue index (image_indexer.py lines 65-109)

The catalogue is a Python dict `name → fingerprint`; Python dicts keep
insertion order, so it is embedded as an association list in insertion
order.  Filesystem reads and JSON parsing are external collaborators:
the store contents are passed in as an `Option String` (absent file =
`none`) and the JSON decoder as a `String → Option` function
(`JSONDecodeError` = `none`). -/

/-- A catalogue: association list from display name to fingerprint, in
dict insertion order. -/
abbrev Catalogue := List (String × List Int)

/-- Embeds `load_index` (image_indexer.py lines 65-75): absent file yields `{}`;
a present file is parsed, and a parse failure is caught, warned about,
and becomes `{}` as well. -/
def load_index (stored : Option String)
    (jsonParse : String → Option Catalogue) : Catalogue :=
  match stored with
  | none => []
  | some s =>
    match jsonParse s with
    | some d => d
    | none => []

/-- C7: `load()` never fails its caller — an absent store yields an empty
catalogue, and a present-but-unparsable store yields an empty catalogue
(the `JSONDecodeError` is caught; the function is total). -/
theorem C7_load_never_fails (jsonParse : String → Option Catalogue)
    (s : String) (hbad : jsonParse s = none) :
    load_index none jsonParse = [] ∧ load_index (some s) jsonParse = [] := by
  refine ⟨rfl, ?_⟩
  simp [load_index, hbad]

/-- C7 witness. -/
theorem C7_load_never_fails_witness :
    ((fun _ : String => (none : Option Catalogue)) "not json" = none) ∧
      (load_index none (fun _ => none) = [] ∧
        load_index (some "not json") (fun _ => none) = []) :=
  ⟨rfl, C7_load_never_fails (fun _ => none) "not json" rfl⟩

/-- Python `str.lower` (ASCII-faithful). -/
def strLower (s : String) : String := ⟨s.data.map Char.toLower⟩

/-- Python `str.endswith` for a single suffix. -/
def strEndsWith (s suffix : String) : Bool :=
  suffix.data.isSuffixOf s.data

/-- The extension filter of `index_all_images` (image_indexer.py line
93): `filename.lower().endswith(('.png', '.jpg', '.jpeg'))`. -/
def isRecognized (filename : String) : Bool :=
  strEndsWith (strLower filename) ".png" ||
  strEndsWith (strLower filename) ".jpg" ||
  strEndsWith (strLower filename) ".jpeg"

/-- Index of the last `'.'` in a list of characters, if any. -/
def lastDotIndex (cs : List Char) : Option Nat :=
  ((List.range cs.length).filter (fun i => cs.getD i ' ' == '.')).getLast?

/-- The stem part of Python `os.path.splitext(filename)[0]` for a plain
basename (no directory separators): split at the last dot, unless every
character before it is a dot (e.g. `.bashrc`), in which case there is no
extension. -/
def splitextStem (s : String) : String :=
  match lastDotIndex s.data with
  | none => s
  | some i =>
    if (s.data.take i).all (fun c => c == '.') then s else ⟨s.data.take i⟩

/-- Python dict assignment `index_data[display_name] = vector`: replace
in place when the key is present (keeping its position), append
otherwise. -/
def upsert (l : Catalogue) (k : String) (v : List Int) : Catalogue :=
  if l.any (fun e => e.1 == k) then
    l.map (fun e => if e.1 == k then (k, v) else e)
  else l ++ [(k, v)]

/-- One iteration of the `index_all_images` loop (image_indexer.py lines
92-107): skip unrecognized extensions; fingerprint the file
(`get_feature_vector ∘ path-join`, passed in as `decode`, `none` = decode
failure); `if vector:` skips both `None` and an empty list; on success
upsert under the extension-stripped name and bump the counter. -/
def indexStep (decode : String → Option (List Int))
    (st : Catalogue × Nat) (filename : String) : Catalogue × Nat :=
  if isRecognized filename then
    match decode filename with
    | some v => if v.isEmpty then st else (upsert st.1 (splitextStem filename) v, st.2 + 1)
    | none => st
  else st

/-- Embeds `index_all_images` (image_indexer.py lines 83-109): `none` directory
listing models the missing-directory early return.  The returned `Nat`
is `new_count`, the value the function returns. -/
def index_all_images (decode : String → Option (List Int))
    (dir : Option (List String)) (index_data : Catalogue) : Catalogue × Nat :=
  match dir with
  | none => (index_data, 0)
  | some listing => listing.foldl (indexStep decode) (index_data, 0)

/-- A listing entry is indexed successfully iff its extension is
recognized, it decodes, and the vector is truthy (nonempty). -/
def succeedsP (decode : String → Option (List Int)) (f : String) : Bool :=
  isRecognized f &&
    (match decode f with
     | some v => !v.isEmpty
     | none => false)

theorem indexStep_snd (decode : String → Option (List Int))
    (st : Catalogue × Nat) (f : String) :
    (indexStep decode st f).2 = st.2 + (if succeedsP decode f then 1 else 0) := by
  unfold indexStep
  by_cases hr : isRecognized f
  · rw [if_pos hr]
    rcases hd : decode f with _ | v
    · simp [succeedsP, hr, hd]
    · show ((if v.isEmpty then st else (upsert st.1 (splitextStem f) v, st.2 + 1)).2) = _
      by_cases hv : v.isEmpty
      · rw [if_pos hv]
        simp [succeedsP, hr, hd, hv]
      · rw [if_neg hv]
        simp only [Bool.not_eq_true] at hv
        simp [succeedsP, hr, hd, hv]
  · rw [if_neg hr]
    simp [succeedsP, hr]

theorem foldl_indexStep_snd (decode : String → Option (List Int)) :
    ∀ (listing : List String) (st : Catalogue × Nat),
      (listing.foldl (indexStep decode) st).2 =
        st.2 + listing.countP (succeedsP decode) := by
  intro listing
  induction listing with
  | nil => intro st; simp
  | cons f fs ih =>
    intro st
    rw [List.foldl_cons, ih, List.countP_cons, indexStep_snd]
    by_cases h : succeedsP decode f <;> simp [h] <;> omega

theorem any_upsert_self (l : Catalogue) (k : String) (v : List Int) :
    (upsert l k v).any (fun e => e.1 == k) = true := by
  unfold upsert
  by_cases h : l.any (fun e => e.1 == k)
  · rw [if_pos h]
    simp only [List.any_eq_true] at h ⊢
    obtain ⟨e, he, hk⟩ := h
    exact ⟨(k, v), List.mem_map.mpr ⟨e, he, by simp [hk]⟩, by simp⟩
  · rw [if_neg h]
    simp [List.any_append]

theorem any_upsert_mono (l : Catalogue) (k : String) (v : List Int)
    (k' : String) (h : l.any (fun e => e.1 == k') = true) :
    (upsert l k v).any (fun e => e.1 == k') = true := by
  unfold upsert
  by_cases hp : l.any (fun e => e.1 == k)
  · rw [if_pos hp]
    simp only [List.any_eq_true] at h ⊢
    obtain ⟨e, he, hk⟩ := h
    by_cases heq : (e.1 == k) = true
    · refine ⟨(k, v), List.mem_map.mpr ⟨e, he, by simp [heq]⟩, ?_⟩
      have h1 : e.1 = k := by simpa using heq
      have h2 : e.1 = k' := by simpa using hk
      have : k = k' := by rw [← h1]; exact h2
      simp [this]
    · exact ⟨e, List.mem_map.mpr ⟨e, he, by simp [heq]⟩, hk⟩
  · rw [if_neg hp]
    simp only [List.any_append, Bool.or_eq_true]
    exact Or.inl h

theorem indexStep_any_mono (decode : String → Option (List Int))
    (st : Catalogue × Nat) (f k : String)
    (h : st.1.any (fun e => e.1 == k) = true) :
    ((indexStep decode st f).1.any (fun e => e.1 == k)) = true := by
  unfold indexStep
  by_cases hr : isRecognized f
  · rw [if_pos hr]
    rcases hd : decode f with _ | v
    · exact h
    · show ((if v.isEmpty then st
          else (upsert st.1 (splitextStem f) v, st.2 + 1)).1.any (fun e => e.1 == k)) = true
      by_cases hv : v.isEmpty
      · rw [if_pos hv]; exact h
      · rw [if_neg hv]; exact any_upsert_mono st.1 (splitextStem f) v k h
  · rw [if_neg hr]; exact h

theorem foldl_indexStep_any_mono (decode : String → Option (List Int)) (k : String) :
    ∀ (listing : List String) (st : Catalogue × Nat),
      st.1.any (fun e => e.1 == k) = true →
      ((listing.foldl (indexStep decode) st).1.any (fun e => e.1 == k)) = true := by
  intro listing
  induction listing with
  | nil => intro st h; exact h
  | cons f fs ih => intro st h; exact ih _ (indexStep_any_mono decode st f k h)

theorem foldl_indexStep_key_present (decode : String → Option (List Int)) :
    ∀ (listing : List String) (st : Catalogue × Nat) (f : String),
      f ∈ listing → isRecognized f = true →
      (∃ v, decode f = some v ∧ v.isEmpty = false) →
      ((listing.foldl (indexStep decode) st).1.any
        (fun e => e.1 == splitextStem f)) = true := by
  intro listing
  induction listing with
  | nil => intro st f hf; cases hf
  | cons g gs ih =>
    intro st f hf hr hv
    obtain ⟨v, hd, hve⟩ := hv
    rcases List.mem_cons.mp hf with rfl | hf'
    · rw [List.foldl_cons]
      apply foldl_indexStep_any_mono
      unfold indexStep
      rw [if_pos hr, hd]
      show ((if v.isEmpty then st
          else (upsert st.1 (splitextStem f) v, st.2 + 1)).1.any
            (fun e => e.1 == splitextStem f)) = true
      rw [if_neg (by simp [hve])]
      exact any_upsert_self st.1 (splitextStem f) v
    · exact ih _ f hf' hr ⟨v, hd, hve⟩

/-- Concrete decoder for a batch of three where item 2 is undecodable. -/
def decodeBatch3 : String → Option (List Int) :=
  fun s => if s = "item1.png" then some [1]
    else if s = "item3.png" then some [3] else none

/-- C8 counterexample: a batch of three where item 2 is undecodable.
The catalogue does contain items 1 and 3, but `index_all_images` returns
`new_count = 2` — the number of successfully indexed items — not the
claimed failure count `1`. -/
theorem C8_reported_count_counterexample :
    (index_all_images decodeBatch3
        (some ["item1.png", "item2.png", "item3.png"]) []).1 =
      [("item1", [1]), ("item3", [3])] ∧
    (index_all_images decodeBatch3
        (some ["item1.png", "item2.png", "item3.png"]) []).2 = 2 ∧
    (2 : Nat) ≠ 1 :=
  ⟨by decide, by decide, by decide⟩

/-- C8 amended: each undecodable entry is skipped without aborting the
batch, every decodable (recognized, truthy-vector) entry ends up keyed in
the catalogue, and the operation reports the number of *successfully
indexed* items (not the number of failures). -/
theorem C8_batch_partial_failure (decode : String → Option (List Int))
    (listing : List String) (idx : Catalogue) :
    (index_all_images decode (some listing) idx).2 =
      listing.countP (succeedsP decode) ∧
    ∀ f ∈ listing, isRecognized f = true →
      ∀ v, decode f = some v → v.isEmpty = false →
        ((index_all_images decode (some listing) idx).1.any
          (fun e => e.1 == splitextStem f)) = true := by
  constructor
  · show (listing.foldl (indexStep decode) (idx, 0)).2 = _
    rw [foldl_indexStep_snd]
    omega
  · intro f hf hr v hd hv
    exact foldl_indexStep_key_present decode listing (idx, 0) f hf hr ⟨v, hd, hv⟩

/-- C8 witness. -/
theorem C8_batch_partial_failure_witness :
    (index_all_images decodeBatch3
        (some ["item1.png", "item2.png", "item3.png"]) []).2 =
      (["item1.png", "item2.png", "item3.png"]).countP (succeedsP decodeBatch3) ∧
    ∀ f ∈ ["item1.png", "item2.png", "item3.png"], isRecognized f = true →
      ∀ v, decodeBatch3 f = some v → v.isEmpty = false →
        ((index_all_images decodeBatch3
            (some ["item1.png", "item2.png", "item3.png"]) []).1.any
          (fun e => e.1 == splitextStem f)) = true :=
  C8_batch_partial_failure decodeBatch3 ["item1.png", "item2.png", "item3.png"] []

/-- Reduction of one loop iteration on a successfully indexed file. -/
theorem indexStep_success (decode : String → Option (List Int))
    (st : Catalogue × Nat) (f : String) (v : List Int)
    (hr : isRecognized f = true) (hd : decode f = some v)
    (hv : v.isEmpty = false) :
    indexStep decode st f = (upsert st.1 (splitextStem f) v, st.2 + 1) := by
  unfold indexStep
  rw [if_pos hr, hd]
  show (if v.isEmpty then st else (upsert st.1 (splitextStem f) v, st.2 + 1)) = _
  rw [if_neg (by simp [hv])]

theorem lookup_map_upsert (k : String) (v : List Int) :
    ∀ l : Catalogue, l.any (fun e => e.1 == k) = true →
      List.lookup k (l.map (fun e => if e.1 == k then (k, v) else e)) = some v := by
  intro l
  induction l with
  | nil => intro h; cases h
  | cons e es ih =>
    obtain ⟨ek, ev⟩ := e
    intro h
    by_cases he : (ek == k) = true
    · simp only [List.map_cons, if_pos he]
      simp [List.lookup]
    · simp only [List.map_cons, if_neg he]
      have he' : (ek == k) = false := by simpa using he
      have hk : (k == ek) = false := by
        rw [beq_eq_false_iff_ne]
        intro hkk
        exact he (by simp [hkk])
      simp only [List.lookup, hk]
      apply ih
      simpa [he'] using h

theorem lookup_append_nomatch (k : String) (v : List Int) :
    ∀ l : Catalogue, l.any (fun e => e.1 == k) = false →
      List.lookup k (l ++ [(k, v)]) = some v := by
  intro l
  induction l with
  | nil => intro _; simp [List.lookup]
  | cons e es ih =>
    obtain ⟨ek, ev⟩ := e
    intro h
    simp only [List.any_cons, Bool.or_eq_false_iff] at h
    have h1 : ek ≠ k := by simpa using h.1
    have hk : (k == ek) = false :=
      beq_eq_false_iff_ne.mpr (fun hkk => h1 hkk.symm)
    rw [List.cons_append]
    simp only [List.lookup, hk]
    exact ih h.2

/-- After a dict assignment `index_data[k] = v`, looking up `k` yields
`v`. -/
theorem lookup_upsert_self (l : Catalogue) (k : String) (v : List Int) :
    List.lookup k (upsert l k v) = some v := by
  unfold upsert
  by_cases h : l.any (fun e => e.1 == k)
  · rw [if_pos h]; exact lookup_map_upsert k v l h
  · rw [if_neg h]
    have h' : l.any (fun e => e.1 == k) = false := by
      cases hx : l.any (fun e => e.1 == k)
      · rfl
      · exact absurd hx h
    exact lookup_append_nomatch k v l h'

/-- Upsert preserves the key list when the key is present and appends the
key otherwise. -/
theorem keys_upsert (l : Catalogue) (k : String) (v : List Int) :
    (upsert l k v).map Prod.fst =
      if l.any (fun e => e.1 == k) then l.map Prod.fst
      else l.map Prod.fst ++ [k] := by
  unfold upsert
  by_cases h : l.any (fun e => e.1 == k)
  · rw [if_pos h, if_pos h, List.map_map]
    apply List.map_congr_left
    intro e _
    by_cases he : (e.1 == k) = true
    · simp only [Function.comp_apply, if_pos he]
      have : e.1 = k := by simpa using he
      simp [this]
    · have he' : ¬ e.1 = k := fun hh => he (by simp [hh])
      simp [Function.comp_apply, he']
  · rw [if_neg h, if_neg h]
    simp

/-- Dict assignment keeps the keys distinct. -/
theorem nodup_keys_upsert (l : Catalogue) (k : String) (v : List Int)
    (h : (l.map Prod.fst).Nodup) : ((upsert l k v).map Prod.fst).Nodup := by
  rw [keys_upsert]
  by_cases hany : l.any (fun e => e.1 == k)
  · rw [if_pos hany]; exact h
  · rw [if_neg hany]
    have hk : k ∉ l.map Prod.fst := by
      intro hmem
      obtain ⟨e, he, hek⟩ := List.mem_map.mp hmem
      apply hany
      exact List.any_eq_true.mpr ⟨e, he, by simp [hek]⟩
    refine List.nodup_append.mpr ⟨h, List.nodup_singleton k, ?_⟩
    intro a ha hb
    have : a = k := by simpa using hb
    exact hk (this ▸ ha)

/-- C10: the catalogue key is the filename with the extension stripped;
two recognized files differing only in extension collide on the same key.
After indexing a listing of both (both decodable, key not already
present), the final catalogue is the initial one plus a single entry
under the shared key holding the fingerprint of the later-enumerated
file — the earlier fingerprint is silently overwritten. -/
theorem C10_extension_collision (decode : String → Option (List Int))
    (idx : Catalogue) (f1 f2 : String) (v1 v2 : List Int)
    (h1 : isRecognized f1 = true) (h2 : isRecognized f2 = true)
    (hstem : splitextStem f1 = splitextStem f2)
    (hd1 : decode f1 = some v1) (hv1 : v1.isEmpty = false)
    (hd2 : decode f2 = some v2) (hv2 : v2.isEmpty = false)
    (hfresh : idx.any (fun e => e.1 == splitextStem f1) = false) :
    (index_all_images decode (some [f1, f2]) idx).1 =
        idx ++ [(splitextStem f2, v2)] ∧
      List.lookup (splitextStem f2) (index_all_images decode (some [f1, f2]) idx).1 =
        some v2 := by
  rw [hstem] at hfresh
  have hrun : (index_all_images decode (some [f1, f2]) idx).1 =
      upsert (upsert idx (splitextStem f2) v1) (splitextStem f2) v2 := by
    show ((([f1, f2]).foldl (indexStep decode) (idx, 0)).1) = _
    rw [List.foldl_cons, indexStep_success decode (idx, 0) f1 v1 h1 hd1 hv1,
        List.foldl_cons, indexStep_success decode _ f2 v2 h2 hd2 hv2,
        List.foldl_nil, hstem]
  have hstep1 : upsert idx (splitextStem f2) v1 = idx ++ [(splitextStem f2, v1)] := by
    unfold upsert
    rw [if_neg (by simp [hfresh])]
  have hkeys : ∀ e ∈ idx, (e.1 == splitextStem f2) = false := by
    intro e he
    cases hx : (e.1 == splitextStem f2)
    · rfl
    · have hx' : idx.any (fun e => e.1 == splitextStem f2) = true :=
        List.any_eq_true.mpr ⟨e, he, hx⟩
      rw [hx'] at hfresh
      cases hfresh
  have hstep2 : upsert (idx ++ [(splitextStem f2, v1)]) (splitextStem f2) v2 =
      idx ++ [(splitextStem f2, v2)] := by
    unfold upsert
    rw [if_pos (by simp [List.any_append])]
    rw [List.map_append]
    congr 1
    · have : idx.map (fun e => if e.1 == splitextStem f2 then (splitextStem f2, v2) else e) =
          idx.map id := by
        apply List.map_congr_left
        intro e he
        rw [if_neg (by simp [hkeys e he])]
        rfl
      rw [this, List.map_id]
    · simp
  have hfinal : (index_all_images decode (some [f1, f2]) idx).1 =
      idx ++ [(splitextStem f2, v2)] := by rw [hrun, hstep1, hstep2]
  refine ⟨hfinal, ?_⟩
  rw [hfinal]
  exact lookup_append_nomatch _ _ idx (by
    cases hx : idx.any (fun e => e.1 == splitextStem f2)
    · rfl
    · exact absurd hx (by simp [hfresh]))

/-- Concrete decoder where both a PNG and a JPG named `a` decode. -/
def decodeCollision : String → Option (List Int) :=
  fun s => if s = "a.png" then some [1] else if s = "a.jpg" then some [2] else none

/-- C10 witness: `a.png` is indexed first, `a.jpg` second; the catalogue
ends with the single key `a` holding `a.jpg`'s fingerprint. -/
theorem C10_extension_collision_witness :
    (isRecognized "a.png" = true ∧ isRecognized "a.jpg" = true ∧
        splitextStem "a.png" = splitextStem "a.jpg" ∧
        decodeCollision "a.png" = some [1] ∧ decodeCollision "a.jpg" = some [2]) ∧
      ((index_all_images decodeCollision (some ["a.png", "a.jpg"]) []).1 =
          [] ++ [(splitextStem "a.jpg", [2])] ∧
        List.lookup (splitextStem "a.jpg")
          (index_all_images decodeCollision (some ["a.png", "a.jpg"]) []).1 =
          some [2]) :=
  ⟨⟨by decide, by decide, by decide, by decide, by decide⟩,
   C10_extension_collision decodeCollision [] "a.png" "a.jpg" [1] [2]
     (by decide) (by decide) (by decide) (by decide) (by decide)
     (by decide) (by decide) (by decide)⟩

/-! ## Matcher (main.py lines 28-68)

`run_comparison_logic` scores the query against every catalogue entry in
dict iteration order, then sorts with
`match_results.sort(key=lambda x: x['confidence'], reverse=True)` —
Python's built-in sort, documented stable, so equal confidences keep
their pre-sort (catalogue insertion) order.  A stable descending
insertion sort embeds that contract. -/

/-- The per-pixel tolerance constant (image_indexer.py line 11), the
fixed tolerance the matcher passes to every comparison. -/
def RGB_TOLERANCE : Int := 15

/-- The scoring loop of `run_comparison_logic` (main.py lines 41-48):
one `(name, confidence)` result per catalogue entry, in catalogue
iteration order; `none` if any comparison raises. -/
def matchResults (query : List Int) : Catalogue → Option (List (String × Rat))
  | [] => some []
  | e :: rest =>
    match compare_vectors query e.2 RGB_TOLERANCE with
    | none => none
    | some c =>
      match matchResults query rest with
      | none => none
      | some rs => some ((e.1, c) :: rs)

/-- Insert one result into an already-descending list, after every
earlier element with a strictly greater confidence and before any with
equal or smaller confidence (stability). -/
def insertDesc (x : String × Rat) : List (String × Rat) → List (String × Rat)
  | [] => [x]
  | y :: ys => if y.2 ≤ x.2 then x :: y :: ys else y :: insertDesc x ys

/-- Models `list.sort(key=lambda r: r['confidence'], reverse=True)`
(main.py line 51): a stable sort by descending confidence. -/
def sortDesc : List (String × Rat) → List (String × Rat)
  | [] => []
  | x :: xs => insertDesc x (sortDesc xs)

/-- Embeds `run_comparison_logic` (main.py lines 28-68), its pure core: the
sorted ranking plus the best match, which is `match_results[0]` after
the sort, or the sentinel `{"name": "None", "confidence": 0.0}` for an
empty catalogue (main.py line 54). -/
def run_comparison_logic (query : List Int) (index_data : Catalogue) :
    Option (List (String × Rat) × (String × Rat)) :=
  match matchResults query index_data with
  | none => none
  | some results =>
    some (sortDesc results, (sortDesc results).headD ("None", 0))

theorem insertDesc_perm (x : String × Rat) (l : List (String × Rat)) :
    List.Perm (insertDesc x l) (x :: l) := by
  induction l with
  | nil => exact List.Perm.refl _
  | cons y ys ih =>
    unfold insertDesc
    by_cases h : y.2 ≤ x.2
    · rw [if_pos h]
    · rw [if_neg h]
      exact List.Perm.trans (List.Perm.cons y ih) (List.Perm.swap x y ys)

theorem sortDesc_perm (l : List (String × Rat)) : List.Perm (sortDesc l) l := by
  induction l with
  | nil => exact List.Perm.refl _
  | cons x xs ih =>
    exact List.Perm.trans (insertDesc_perm x (sortDesc xs)) (List.Perm.cons x ih)

theorem insertDesc_pairwise (x : String × Rat) (l : List (String × Rat))
    (h : l.Pairwise (fun a b => b.2 ≤ a.2)) :
    (insertDesc x l).Pairwise (fun a b => b.2 ≤ a.2) := by
  induction l with
  | nil => simp [insertDesc]
  | cons y ys ih =>
    rw [List.pairwise_cons] at h
    unfold insertDesc
    by_cases hcmp : y.2 ≤ x.2
    · rw [if_pos hcmp]
      rw [List.pairwise_cons]
      refine ⟨?_, List.pairwise_cons.mpr h⟩
      intro z hz
      rcases List.mem_cons.mp hz with rfl | hz'
      · exact hcmp
      · exact le_trans (h.1 z hz') hcmp
    · rw [if_neg hcmp]
      rw [List.pairwise_cons]
      refine ⟨?_, ih h.2⟩
      intro z hz
      have hz' : z ∈ x :: ys := (insertDesc_perm x ys).mem_iff.mp hz
      rcases List.mem_cons.mp hz' with rfl | hz''
      · exact le_of_lt (lt_of_not_le hcmp)
      · exact h.1 z hz''

theorem sortDesc_pairwise (l : List (String × Rat)) :
    (sortDesc l).Pairwise (fun a b => b.2 ≤ a.2) := by
  induction l with
  | nil => simp [sortDesc]
  | cons x xs ih => exact insertDesc_pairwise x (sortDesc xs) ih

theorem filter_insertDesc_pos (c : Rat) (x : String × Rat) (hx : x.2 = c) :
    ∀ l : List (String × Rat),
      (insertDesc x l).filter (fun e => e.2 == c) =
        x :: l.filter (fun e => e.2 == c) := by
  intro l
  induction l with
  | nil => simp [insertDesc, List.filter, hx]
  | cons y ys ih =>
    unfold insertDesc
    by_cases hcmp : y.2 ≤ x.2
    · rw [if_pos hcmp]
      simp [List.filter, hx]
    · rw [if_neg hcmp]
      have hy : (y.2 == c) = false := by
        have : c < y.2 := hx ▸ lt_of_not_le hcmp
        simp [ne_of_gt this]
      rw [List.filter_cons, hy, ih, List.filter_cons, hy]
      simp

theorem filter_insertDesc_neg (c : Rat) (x : String × Rat) (hx : ¬ x.2 = c) :
    ∀ l : List (String × Rat),
      (insertDesc x l).filter (fun e => e.2 == c) =
        l.filter (fun e => e.2 == c) := by
  intro l
  have hxc : (x.2 == c) = false := by simp [hx]
  induction l with
  | nil => simp [insertDesc, List.filter, hxc]
  | cons y ys ih =>
    unfold insertDesc
    by_cases hcmp : y.2 ≤ x.2
    · rw [if_pos hcmp]
      rw [List.filter_cons, hxc]
      simp
    · rw [if_neg hcmp]
      rw [List.filter_cons, ih, List.filter_cons]

/-- Stability: the sort preserves the original relative order of entries
with any given confidence. -/
theorem sortDesc_stable (c : Rat) (l : List (String × Rat)) :
    (sortDesc l).filter (fun e => e.2 == c) = l.filter (fun e => e.2 == c) := by
  induction l with
  | nil => rfl
  | cons x xs ih =>
    show (insertDesc x (sortDesc xs)).filter _ = _
    by_cases hx : x.2 = c
    · rw [filter_insertDesc_pos c x hx, ih, List.filter_cons]
      simp [hx]
    · rw [filter_insertDesc_neg c x hx, ih, List.filter_cons]
      simp [hx]

theorem matchResults_names (query : List Int) :
    ∀ (index_data : Catalogue) (results : List (String × Rat)),
      matchResults query index_data = some results →
      results.map Prod.fst = index_data.map Prod.fst := by
  intro index_data
  induction index_data with
  | nil =>
    intro results h
    simp only [matchResults] at h
    injection h with h
    subst h
    rfl
  | cons e rest ih =>
    intro results h
    simp only [matchResults] at h
    rcases hc : compare_vectors query e.2 RGB_TOLERANCE with _ | c
    · rw [hc] at h; cases h
    · rw [hc] at h
      rcases hr : matchResults query rest with _ | rs
      · rw [hr] at h; cases h
      · rw [hr] at h
        injection h with h
        subst h
        simp only [List.map_cons]
        rw [ih rs hr]

/-- C2: on any catalogue for which no comparison raises, the matcher's
result list has one `(name, confidence)` entry per catalogue entry (the
names, in pre-sort order, are exactly the catalogue's iteration order),
the ranking is a permutation of those scored entries sorted by
descending confidence, and entries of equal confidence keep the
catalogue's original iteration order.  The function is deterministic by
construction (it is a pure function of its arguments). -/
theorem C2_ranking_stable_sorted (query : List Int) (index_data : Catalogue)
    (ranked : List (String × Rat)) (best : String × Rat)
    (h : run_comparison_logic query index_data = some (ranked, best)) :
    ∃ results : List (String × Rat),
      matchResults query index_data = some results ∧
      results.map Prod.fst = index_data.map Prod.fst ∧
      ranked = sortDesc results ∧
      List.Perm ranked results ∧
      ranked.Pairwise (fun a b => b.2 ≤ a.2) ∧
      ∀ c : Rat, ranked.filter (fun e => e.2 == c) =
        results.filter (fun e => e.2 == c) := by
  unfold run_comparison_logic at h
  rcases hm : matchResults query index_data with _ | results
  · rw [hm] at h; cases h
  · rw [hm] at h
    injection h with h
    have hpair := congrArg Prod.fst h
    simp only at hpair
    refine ⟨results, rfl, matchResults_names query index_data results hm, ?_, ?_, ?_, ?_⟩
    · exact hpair.symm
    · rw [← hpair]; exact sortDesc_perm results
    · rw [← hpair]; exact sortDesc_pairwise results
    · intro c
      rw [← hpair]
      exact sortDesc_stable c results

/-- C2 witness: a three-entry catalogue with a confidence tie between
the first two entries. -/
theorem C2_ranking_stable_sorted_witness :
    (run_comparison_logic [0, 0, 0]
        [("B", [0, 0, 0]), ("C", [0, 0, 0]), ("A", [200, 0, 0])] =
      some ([("B", 100), ("C", 100), ("A", 0)], ("B", 100))) ∧
    ∃ results : List (String × Rat),
      matchResults [0, 0, 0]
          [("B", [0, 0, 0]), ("C", [0, 0, 0]), ("A", [200, 0, 0])] = some results ∧
      results.map Prod.fst =
        ([("B", [0, 0, 0]), ("C", [0, 0, 0]),
          ("A", ([200, 0, 0] : List Int))]).map Prod.fst ∧
      [("B", (100 : Rat)), ("C", 100), ("A", 0)] = sortDesc results ∧
      List.Perm [("B", (100 : Rat)), ("C", 100), ("A", 0)] results ∧
      ([("B", (100 : Rat)), ("C", 100), ("A", 0)]).Pairwise (fun a b => b.2 ≤ a.2) ∧
      ∀ c : Rat,
        ([("B", (100 : Rat)), ("C", 100), ("A", 0)]).filter (fun e => e.2 == c) =
          results.filter (fun e => e.2 == c) :=
  ⟨by norm_num [run_comparison_logic, matchResults, compare_vectors, countMismatch,
      iabs, RGB_TOLERANCE, sortDesc, insertDesc],
   C2_ranking_stable_sorted [0, 0, 0]
     [("B", [0, 0, 0]), ("C", [0, 0, 0]), ("A", [200, 0, 0])]
     [("B", 100), ("C", 100), ("A", 0)] ("B", 100)
     (by norm_num [run_comparison_logic, matchResults, compare_vectors, countMismatch,
        iabs, RGB_TOLERANCE, sortDesc, insertDesc])⟩

/-- C9: against an empty catalogue the matcher raises nothing and
reports the defined sentinel `("None", 0.0)` as the best match, with an
empty ranking. -/
theorem C9_empty_catalogue_sentinel (query : List Int) :
    run_comparison_logic query [] = some ([], ("None", 0)) := rfl

end Riot
